import Mathlib

/-!
Verification of the data_curator_ctx_tool repository.

This file shallowly embeds the parts of the repository that the frozen
claims are about:

* `src/src/workflow/html_to_markdown.py` — the content normalizer's
  post-conversion clean-up (`EXCESSIVE_NEWLINES_RE`, `.strip()`,
  `REDUNDANT_TABLES_RE`);
* `src/src/workflow/sso_weshare_scraper.py` — the hierarchy crawler
  `_expand_and_scrape` and the per-page content fallback chain of
  `_scrape_single_page_enhanced`;
* `src/runnables/run_ctx_agent.py` — thresholds, `_query_with_retry`,
  `_parse_agent_response`, `_save_to_database` and `validate_all_pages`;
* `src/src/db/database.py` — `add_validated_url` upsert behaviour over an
  abstract relational store.

Python floats are modelled as rationals (all score and delay constants in
the source are exactly representable and the comparisons the claims are
about agree between the two); machine strings are Lean `String`s; fallible
code returns `Option`/`Except`.  External collaborators (the browser, the
HTTP client, BeautifulSoup/markdownify, the SQL engine) are abstracted as
explicitly passed functions or as the input on which the repository's own
code operates, following the spec's own component boundaries.

Recursive scans over strings are written with a fuel argument equal to the
input length so that they are structurally recursive and computable by the
kernel; a fuel-invariance lemma shows the fuel is only a termination
device.
-/

namespace DataCurator

/-! ## Whitespace model

Python's `re` class `\s` and `str.strip()` treat the six ASCII characters
space, tab, newline, carriage return, vertical tab and form feed as
whitespace (the Unicode extras never occur in the claims' inputs and are
not modelled). -/

def isPySpace (c : Char) : Bool :=
  c = ' ' || c = '\t' || c = '\n' || c = '\r' || c = '\x0b' || c = '\x0c'

/-- Python `str.strip()` on a character list. -/
def pyStrip (l : List Char) : List Char :=
  ((l.dropWhile isPySpace).reverse.dropWhile isPySpace).reverse

/-- The whitespace run that a greedy match of `\n\s*\n` leaves behind: the
part of an all-whitespace block strictly after its last newline. -/
def wsTail (l : List Char) : List Char :=
  (l.reverse.takeWhile (· != '\n')).reverse

theorem length_takeWhile_lt_of_mem {p : Char → Bool} {a : Char} :
    ∀ {l : List Char}, a ∈ l → p a = false → (l.takeWhile p).length < l.length
  | c :: rest, h, hp => by
    by_cases hc : p c
    · simp only [List.takeWhile_cons, hc, List.length_cons]
      rcases List.mem_cons.mp h with rfl | hmem
      · exact absurd hc (by simp [hp])
      · exact Nat.succ_lt_succ (length_takeWhile_lt_of_mem hmem hp)
    · simp only [List.takeWhile_cons, Bool.not_eq_true] at hc
      simp [hc]

theorem wsTail_length_lt {l : List Char} (h : '\n' ∈ l) :
    (wsTail l).length < l.length := by
  have h' : '\n' ∈ l.reverse := List.mem_reverse.mpr h
  have := length_takeWhile_lt_of_mem (p := (· != '\n')) h' (by simp)
  simpa [wsTail] using this

theorem collapse_arg_length {rest : List Char} (h : '\n' ∈ rest.takeWhile isPySpace) :
    (wsTail (rest.takeWhile isPySpace) ++ rest.dropWhile isPySpace).length < rest.length := by
  have h1 := wsTail_length_lt h
  have h2 : (rest.takeWhile isPySpace).length + (rest.dropWhile isPySpace).length
      = rest.length := by
    rw [← List.length_append, List.takeWhile_append_dropWhile]
  simp only [List.length_append]
  omega

/-- Greedy, leftmost, non-overlapping substitution of `\n\s*\n` by `"\n\n"`,
embedding `EXCESSIVE_NEWLINES_RE.sub("\n\n", ·)` from
src/src/workflow/html_to_markdown.py line 72.  At a newline whose following
whitespace block contains another newline, the greedy match consumes the
block up to and including its last newline and is replaced by two newlines;
scanning resumes after the consumed part. -/
def collapseGo : Nat → List Char → List Char
  | 0, l => l
  | _ + 1, [] => []
  | fuel + 1, c :: rest =>
    if c = '\n' ∧ '\n' ∈ rest.takeWhile isPySpace then
      '\n' :: '\n' ::
        collapseGo fuel (wsTail (rest.takeWhile isPySpace) ++ rest.dropWhile isPySpace)
    else
      c :: collapseGo fuel rest

def collapse (l : List Char) : List Char := collapseGo l.length l

theorem collapseGo_congr : ∀ (f g : Nat) (l : List Char), l.length ≤ f → l.length ≤ g →
    collapseGo f l = collapseGo g l := by
  intro f
  induction f with
  | zero =>
    intro g l hf _
    obtain rfl : l = [] := List.length_eq_zero.mp (Nat.le_zero.mp hf)
    cases g <;> rfl
  | succ f ih =>
    intro g l hf hg
    cases l with
    | nil => cases g <;> rfl
    | cons c rest =>
      cases g with
      | zero => simp at hg
      | succ g =>
        simp only [List.length_cons, Nat.succ_le_succ_iff] at hf hg
        simp only [collapseGo]
        by_cases h : c = '\n' ∧ '\n' ∈ rest.takeWhile isPySpace
        · rw [if_pos h, if_pos h]
          have hlen := collapse_arg_length h.2
          rw [ih g _ (by omega) (by omega)]
        · rw [if_neg h, if_neg h, ih g rest hf hg]

theorem collapse_nil : collapse [] = [] := rfl

theorem collapse_cons_of_not_nl {c : Char} (r : List Char) (h : c ≠ '\n') :
    collapse (c :: r) = c :: collapse r := by
  show collapseGo (r.length + 1) (c :: r) = c :: collapse r
  simp only [collapseGo]
  rw [if_neg (fun hh => h hh.1)]
  rfl

theorem collapse_cons_nl_no {r : List Char} (h : '\n' ∉ r.takeWhile isPySpace) :
    collapse ('\n' :: r) = '\n' :: collapse r := by
  show collapseGo (r.length + 1) ('\n' :: r) = '\n' :: collapse r
  simp only [collapseGo]
  rw [if_neg (fun hh => h hh.2)]
  rfl

theorem collapse_cons_nl_yes {r : List Char} (h : '\n' ∈ r.takeWhile isPySpace) :
    collapse ('\n' :: r)
      = '\n' :: '\n' :: collapse (wsTail (r.takeWhile isPySpace) ++ r.dropWhile isPySpace) := by
  show collapseGo (r.length + 1) ('\n' :: r) = _
  simp only [collapseGo]
  rw [if_pos ⟨trivial, h⟩]
  have hlen := collapse_arg_length h
  rw [collapseGo_congr r.length
    (wsTail (r.takeWhile isPySpace) ++ r.dropWhile isPySpace).length _ (by omega)
    (Nat.le_refl _)]
  rfl

/-! ## The redundant-table rewrite

`REDUNDANT_TABLES_RE = re.compile(r"\| ``` (.*?) ``` \|\n\| --- \|", re.DOTALL)`
is substituted by `r"```\1```\n"` (html_to_markdown.py lines 28 and 74).
The pattern is a literal head, a lazy dot-all capture, and a literal
delimiter, so a match at a position is the literal head followed by the
earliest later occurrence of the delimiter. -/

def tablePat : List Char := "| ``` ".data

def tableDelim : List Char := " ``` |\n| --- |".data

/-- Split a character list at the first occurrence of `delim`: returns the
part before the occurrence and the part after it. -/
def splitOnFirst (delim : List Char) : List Char → Option (List Char × List Char)
  | [] => if delim.isEmpty then some ([], []) else none
  | c :: rest =>
    if delim.isPrefixOf (c :: rest) then some ([], (c :: rest).drop delim.length)
    else
      match splitOnFirst delim rest with
      | some (a, b) => some (c :: a, b)
      | none => none

theorem splitOnFirst_eq {delim : List Char} :
    ∀ {l a b : List Char}, splitOnFirst delim l = some (a, b) → l = a ++ delim ++ b := by
  intro l
  induction l with
  | nil =>
    intro a b h
    simp only [splitOnFirst] at h
    split at h
    · next hd =>
      simp only [Option.some.injEq, Prod.mk.injEq] at h
      simp [List.isEmpty_iff.mp hd, ← h.1, ← h.2]
    · exact absurd h (by simp)
  | cons c rest ih =>
    intro a b h
    simp only [splitOnFirst] at h
    split at h
    · next hp =>
      simp only [Option.some.injEq, Prod.mk.injEq] at h
      rcases List.isPrefixOf_iff_prefix.mp hp with ⟨t, ht⟩
      rw [← h.1, ← h.2, List.nil_append, ← ht]
      simp [← ht, List.drop_left' (by rfl)]
    · split at h
      · next a' b' heq =>
        simp only [Option.some.injEq, Prod.mk.injEq] at h
        rw [← h.1, ← h.2]
        simpa using ih heq
      · exact absurd h (by simp)

theorem splitOnFirst_length {delim l a b : List Char}
    (h : splitOnFirst delim l = some (a, b)) :
    a.length + delim.length + b.length = l.length := by
  have := splitOnFirst_eq h
  subst this
  simp [Nat.add_assoc]

/-- The substitution `REDUNDANT_TABLES_RE.sub(r"```\1```\n", ·)`: scan left
to right; where the literal pattern head matches and the delimiter occurs
later, replace the whole match (lazy capture) and continue after it,
otherwise copy one character. -/
def tableSubGo : Nat → List Char → List Char
  | 0, l => l
  | _ + 1, [] => []
  | fuel + 1, c :: rest =>
    if tablePat.isPrefixOf (c :: rest) then
      match splitOnFirst tableDelim ((c :: rest).drop tablePat.length) with
      | some (cap, after) => "```".data ++ cap ++ "```\n".data ++ tableSubGo fuel after
      | none => c :: tableSubGo fuel rest
    else c :: tableSubGo fuel rest

def tableSub (l : List Char) : List Char := tableSubGo l.length l

theorem tablePat_length : tablePat.length = 6 := by decide

theorem tableDelim_length : tableDelim.length = 14 := by decide

theorem splitOnFirst_after_length {c : Char} {rest cap after : List Char}
    (h : splitOnFirst tableDelim ((c :: rest).drop tablePat.length) = some (cap, after)) :
    after.length ≤ rest.length := by
  have h1 := splitOnFirst_length h
  have h2 : ((c :: rest).drop tablePat.length).length = rest.length + 1 - tablePat.length := by
    simp [List.length_drop]
  have e1 := tablePat_length
  have e2 := tableDelim_length
  omega

theorem tableSubGo_congr : ∀ (f g : Nat) (l : List Char), l.length ≤ f → l.length ≤ g →
    tableSubGo f l = tableSubGo g l := by
  intro f
  induction f with
  | zero =>
    intro g l hf _
    obtain rfl : l = [] := List.length_eq_zero.mp (Nat.le_zero.mp hf)
    cases g <;> rfl
  | succ f ih =>
    intro g l hf hg
    cases l with
    | nil => cases g <;> rfl
    | cons c rest =>
      cases g with
      | zero => simp at hg
      | succ g =>
        simp only [List.length_cons, Nat.succ_le_succ_iff] at hf hg
        simp only [tableSubGo]
        by_cases hpat : tablePat.isPrefixOf (c :: rest) = true
        · rw [if_pos hpat, if_pos hpat]
          cases hsp : splitOnFirst tableDelim ((c :: rest).drop tablePat.length) with
          | some p =>
            obtain ⟨cap, after⟩ := p
            have hlen := splitOnFirst_after_length hsp
            dsimp only
            rw [ih g after (by omega) (by omega)]
          | none =>
            dsimp only
            rw [ih g rest hf hg]
        · rw [if_neg hpat, if_neg hpat, ih g rest hf hg]

theorem tableSub_nil : tableSub [] = [] := rfl

theorem tableSub_cons_match {c : Char} {rest cap after : List Char}
    (hpat : tablePat.isPrefixOf (c :: rest) = true)
    (hsplit : splitOnFirst tableDelim ((c :: rest).drop tablePat.length) = some (cap, after)) :
    tableSub (c :: rest) = "```".data ++ cap ++ "```\n".data ++ tableSub after := by
  show tableSubGo (rest.length + 1) (c :: rest) = _
  simp only [tableSubGo]
  rw [if_pos hpat, hsplit]
  have hlen := splitOnFirst_after_length hsplit
  dsimp only
  rw [tableSubGo_congr rest.length after.length after hlen (Nat.le_refl _)]
  rfl

theorem tableSub_cons_nomatch {c : Char} {rest : List Char}
    (hpat : tablePat.isPrefixOf (c :: rest) = true)
    (hsplit : splitOnFirst tableDelim ((c :: rest).drop tablePat.length) = none) :
    tableSub (c :: rest) = c :: tableSub rest := by
  show tableSubGo (rest.length + 1) (c :: rest) = _
  simp only [tableSubGo]
  rw [if_pos hpat, hsplit]
  rfl

theorem tableSub_cons_nopat {c : Char} {rest : List Char}
    (hpat : ¬ tablePat.isPrefixOf (c :: rest) = true) :
    tableSub (c :: rest) = c :: tableSub rest := by
  show tableSubGo (rest.length + 1) (c :: rest) = _
  simp only [tableSubGo]
  rw [if_neg hpat]
  rfl

/-- Lines 65-76 of src/src/workflow/html_to_markdown.py: the BeautifulSoup
parse, `unwrap_tables`, `prettify` and `markdownify.markdownify` steps are
the external markup-conversion collaborator (spec section 1 treats that
library as an opaque pure-function contract); its output is the `markdown`
string of line 69, which this function takes as input.  The repository's
own post-processing is lines 72-74: collapse excessive newlines, strip,
then rewrite redundant single-cell tables. -/
def html_to_markdown (markdown : String) : String :=
  ⟨tableSub (pyStrip (collapse markdown.data))⟩

/-! ## Counting newlines per whitespace block

A run of `k` consecutive blank lines (lines containing at most spaces and
tabs) is exactly `k + 1` newline characters separated by non-newline
whitespace only, i.e. a maximal whitespace block containing `k + 1`
newlines.  `leadNL` counts the newlines of the leading whitespace block of
a character list, and `maxNL` the maximum newline count over all its
maximal whitespace blocks; so a text contains a run of three or more
consecutive blank lines exactly when `maxNL` of it is at least four. -/

def nlMark (c : Char) : Nat := if c = '\n' then 1 else 0

def leadNL : List Char → Nat
  | [] => 0
  | c :: r => if isPySpace c then nlMark c + leadNL r else 0

def maxNL : List Char → Nat
  | [] => 0
  | c :: r => if isPySpace c then max (leadNL (c :: r)) (maxNL r) else maxNL r

theorem leadNL_le_maxNL : ∀ l : List Char, leadNL l ≤ maxNL l
  | [] => Nat.le_refl 0
  | c :: r => by
    by_cases h : isPySpace c
    · simp [maxNL, h, Nat.le_max_left]
    · simp [leadNL, maxNL, h]

theorem maxNL_cons_le (c : Char) (r : List Char) : maxNL r ≤ maxNL (c :: r) := by
  by_cases h : isPySpace c
  · simp [maxNL, h, Nat.le_max_right]
  · simp [maxNL, h]

theorem leadNL_le_append : ∀ (x t : List Char), leadNL x ≤ leadNL (x ++ t)
  | [], _ => Nat.zero_le _
  | c :: x, t => by
    by_cases h : isPySpace c
    · simpa [leadNL, h] using leadNL_le_append x t
    · simp [leadNL, h]

theorem leadNL_append_le : ∀ (x y : List Char), leadNL (x ++ y) ≤ leadNL x + leadNL y
  | [], y => by simp
  | c :: x, y => by
    by_cases h : isPySpace c
    · have := leadNL_append_le x y
      simp only [List.cons_append, leadNL, h, if_true, List.append_eq] at this ⊢
      omega
    · simp [leadNL, h]

theorem maxNL_append_le : ∀ (x y : List Char),
    maxNL (x ++ y) ≤ max (maxNL x + leadNL y) (maxNL y)
  | [], y => by simp [maxNL]
  | c :: x, y => by
    have ih := maxNL_append_le x y
    by_cases h : isPySpace c
    · simp only [List.cons_append, maxNL, h, if_true]
      have h1 : leadNL (c :: (x ++ y)) ≤ leadNL (c :: x) + leadNL y := by
        have := leadNL_append_le x y
        simp only [leadNL, h, if_true, List.append_eq] at this ⊢
        omega
      have h2 : leadNL (c :: x) ≤ maxNL (c :: x) := leadNL_le_maxNL _
      have h3 : maxNL x ≤ maxNL (c :: x) := maxNL_cons_le c x
      simp only [maxNL, h, if_true, List.append_eq] at h1 h2 h3 ih ⊢
      omega
    · simp only [List.cons_append, maxNL, h, if_false, Bool.false_eq_true] at ih ⊢
      exact ih

theorem maxNL_of_suffix : ∀ {l r : List Char}, r <:+ l → maxNL r ≤ maxNL l := by
  intro l
  induction l with
  | nil => intro r h; simp [List.suffix_nil.mp h]
  | cons c t ih =>
    intro r h
    rcases List.suffix_cons_iff.mp h with rfl | h'
    · exact Nat.le_refl _
    · exact Nat.le_trans (ih h') (maxNL_cons_le c t)

theorem maxNL_of_append_left : ∀ (w t : List Char), maxNL w ≤ maxNL (w ++ t)
  | [], _ => Nat.zero_le _
  | c :: w, t => by
    by_cases h : isPySpace c
    · simp only [List.cons_append, maxNL, h, if_true]
      exact max_le_max (leadNL_le_append (c :: w) t) (maxNL_of_append_left w t)
    · simp only [List.cons_append, maxNL, h, if_false, Bool.false_eq_true]
      exact maxNL_of_append_left w t

theorem maxNL_infix_le {v l : List Char} (h : v <:+: l) : maxNL v ≤ maxNL l := by
  rcases h with ⟨s, t, rfl⟩
  exact Nat.le_trans (maxNL_of_append_left v t) (maxNL_of_suffix ⟨s, by simp⟩)

theorem dropWhile_head_not {p : Char → Bool} (l : List Char) :
    l.dropWhile p = [] ∨ ∃ c r, l.dropWhile p = c :: r ∧ p c = false := by
  induction l with
  | nil => exact Or.inl rfl
  | cons c t ih =>
    by_cases h : p c
    · simpa [List.dropWhile_cons, h] using ih
    · exact Or.inr ⟨c, t, by simp [List.dropWhile_cons, h], by simpa using h⟩

theorem leadNL_cons_nonws {c : Char} (x : List Char) (h : isPySpace c = false) :
    leadNL (c :: x) = 0 := by
  simp [leadNL, h]

theorem pyStrip_leadNL (l : List Char) : leadNL (pyStrip l) = 0 := by
  rcases dropWhile_head_not (p := isPySpace) l with h | ⟨c, r, h, hc⟩
  · have : pyStrip l = [] := by
      rw [pyStrip, h]
      rfl
    rw [this]
    rfl
  · have hpre : pyStrip l <+: l.dropWhile isPySpace := by
      rw [pyStrip, ← List.reverse_suffix, List.reverse_reverse]
      exact List.dropWhile_suffix _
    cases hw : pyStrip l with
    | nil => rfl
    | cons c' w' =>
      rcases hpre with ⟨t, ht⟩
      rw [hw, List.cons_append] at ht
      rw [h] at ht
      cases ht
      exact leadNL_cons_nonws _ hc

theorem pyStrip_infix_of (l : List Char) : pyStrip l <:+: l := by
  have h1 : l.dropWhile isPySpace <:+ l := List.dropWhile_suffix _
  have h2 : pyStrip l <+: l.dropWhile isPySpace := by
    rw [pyStrip, ← List.reverse_suffix, List.reverse_reverse]
    exact List.dropWhile_suffix _
  exact List.IsInfix.trans h2.isInfix h1.isInfix

/-! ## Structure of the collapsed text -/

theorem isPySpace_nl : isPySpace '\n' = true := by decide

theorem collapse_ws_append : ∀ {a : List Char} (t : List Char),
    (∀ c ∈ a, isPySpace c = true ∧ c ≠ '\n') → collapse (a ++ t) = a ++ collapse t
  | [], _, _ => by simp
  | c :: a, t, h => by
    have hc := h c (List.mem_cons_self c a)
    rw [List.cons_append, collapse_cons_of_not_nl _ hc.2,
      collapse_ws_append t (fun x hx => h x (List.mem_cons_of_mem c hx))]
    rfl

theorem takeWhile_append_of_all {p : Char → Bool} :
    ∀ {a : List Char} (x : List Char), (∀ c ∈ a, p c = true) →
      (a ++ x).takeWhile p = a ++ x.takeWhile p
  | [], _, _ => by simp
  | c :: a, x, h => by
    have hc := h c (List.mem_cons_self c a)
    simp only [List.cons_append, List.takeWhile_cons, hc, if_true]
    rw [takeWhile_append_of_all x (fun y hy => h y (List.mem_cons_of_mem c hy))]

theorem dropWhile_append_of_all {p : Char → Bool} :
    ∀ {a : List Char} (x : List Char), (∀ c ∈ a, p c = true) →
      (a ++ x).dropWhile p = x.dropWhile p
  | [], _, _ => by simp
  | c :: a, x, h => by
    have hc := h c (List.mem_cons_self c a)
    simp only [List.cons_append, List.dropWhile_cons, hc, if_true]
    exact dropWhile_append_of_all x (fun y hy => h y (List.mem_cons_of_mem c hy))

theorem collapse_after_drop (rest : List Char) :
    leadNL (collapse (rest.dropWhile isPySpace)) = 0 ∧
      (collapse (rest.dropWhile isPySpace)).takeWhile isPySpace = [] := by
  rcases dropWhile_head_not (p := isPySpace) rest with h | ⟨c, r, h, hc⟩
  · simp [h, collapse_nil, leadNL]
  · have hnl : c ≠ '\n' := by
      intro e
      rw [e, isPySpace_nl] at hc
      exact absurd hc (by simp)
    rw [h, collapse_cons_of_not_nl _ hnl]
    exact ⟨leadNL_cons_nonws _ hc, by simp [List.takeWhile_cons, hc]⟩

theorem wsTail_spec {l : List Char} (hl : ∀ c ∈ l, isPySpace c = true) :
    ∀ c ∈ wsTail l, isPySpace c = true ∧ c ≠ '\n' := by
  intro c hc
  rw [wsTail, List.mem_reverse] at hc
  have h1 : (c != '\n') = true := List.mem_takeWhile_imp (p := fun x => x != '\n') hc
  have h2 : c ∈ l.reverse := (List.takeWhile_sublist _).subset hc
  exact ⟨hl c (List.mem_reverse.mp h2), by simpa using h1⟩

theorem wsTail_cons_nl {a : List Char} (h : ∀ c ∈ a, c ≠ '\n') :
    wsTail ('\n' :: a) = a := by
  rw [wsTail]
  have he : ('\n' :: a).reverse = a.reverse ++ ['\n'] := by simp
  rw [he, takeWhile_append_of_all _
    (fun c hc => by simpa using h c (List.mem_reverse.mp hc))]
  simp [List.takeWhile]

theorem leadNL_append_ws {a : List Char} (x : List Char)
    (h : ∀ c ∈ a, isPySpace c = true ∧ c ≠ '\n') : leadNL (a ++ x) = leadNL x := by
  induction a with
  | nil => rfl
  | cons c a ih =>
    have hc := h c (List.mem_cons_self c a)
    simp only [List.cons_append, leadNL, hc.1, if_true, nlMark, if_neg hc.2, Nat.zero_add]
    exact ih (fun y hy => h y (List.mem_cons_of_mem c hy))

theorem collapse_bounds_aux : ∀ (n : Nat) (l : List Char), l.length ≤ n →
    leadNL (collapse l) ≤ 2 ∧ maxNL (collapse l) ≤ 2 := by
  intro n
  induction n with
  | zero =>
    intro l hl
    obtain rfl : l = [] := List.length_eq_zero.mp (Nat.le_zero.mp hl)
    simp [collapse_nil, leadNL, maxNL]
  | succ n ih =>
    intro l hl
    cases l with
    | nil => simp [collapse_nil, leadNL, maxNL]
    | cons c rest =>
      have hrest : rest.length ≤ n := by
        simp only [List.length_cons, Nat.succ_le_succ_iff] at hl
        exact hl
      by_cases hc : c = '\n'
      · subst hc
        by_cases hmem : '\n' ∈ rest.takeWhile isPySpace
        · rw [collapse_cons_nl_yes hmem]
          have harg : (wsTail (rest.takeWhile isPySpace) ++ rest.dropWhile isPySpace).length
              ≤ n := Nat.le_trans (Nat.le_of_lt (collapse_arg_length hmem)) hrest
          have ihr := ih _ harg
          have hAspec : ∀ x ∈ wsTail (rest.takeWhile isPySpace),
              isPySpace x = true ∧ x ≠ '\n' :=
            wsTail_spec (fun _ hx => List.mem_takeWhile_imp hx)
          have hsplit : collapse (wsTail (rest.takeWhile isPySpace) ++ rest.dropWhile isPySpace)
              = wsTail (rest.takeWhile isPySpace) ++ collapse (rest.dropWhile isPySpace) :=
            collapse_ws_append _ hAspec
          have hlead : leadNL (collapse (wsTail (rest.takeWhile isPySpace)
              ++ rest.dropWhile isPySpace)) = 0 := by
            rw [hsplit, leadNL_append_ws _ hAspec, (collapse_after_drop rest).1]
          refine ⟨?_, ?_⟩
          · simp [leadNL, isPySpace_nl, nlMark, hlead]
          · have hm := ihr.2
            simp only [maxNL, isPySpace_nl, if_true, leadNL, nlMark, if_pos rfl, hlead]
            omega
        · rw [collapse_cons_nl_no hmem]
          have ihr := ih rest hrest
          have hws : ∀ x ∈ rest.takeWhile isPySpace, isPySpace x = true ∧ x ≠ '\n' :=
            fun x hx => ⟨List.mem_takeWhile_imp hx, fun e => hmem (e ▸ hx)⟩
          have hrw : collapse rest
              = rest.takeWhile isPySpace ++ collapse (rest.dropWhile isPySpace) := by
            conv_lhs => rw [← List.takeWhile_append_dropWhile isPySpace rest]
            exact collapse_ws_append _ hws
          have hlead : leadNL (collapse rest) = 0 := by
            rw [hrw, leadNL_append_ws _ hws, (collapse_after_drop rest).1]
          have hm := ihr.2
          refine ⟨?_, ?_⟩
          · simp [leadNL, isPySpace_nl, nlMark, hlead]
          · simp only [maxNL, isPySpace_nl, if_true, leadNL, nlMark, if_pos rfl, hlead]
            omega
      · rw [collapse_cons_of_not_nl _ hc]
        have ihr := ih rest hrest
        by_cases hsp : isPySpace c
        · have h1 := ihr.1
          have h2 := ihr.2
          refine ⟨?_, ?_⟩
          · simp only [leadNL, hsp, if_true, nlMark, if_neg hc, Nat.zero_add]
            exact h1
          · simp only [maxNL, hsp, if_true, leadNL, nlMark, if_neg hc, Nat.zero_add]
            omega
        · exact ⟨by simp [leadNL, hsp], by simpa [maxNL, hsp] using ihr.2⟩

/-- After the newline-collapsing pass, the leading whitespace block of the
output has at most two newlines and so does every other whitespace block:
a greedy match consumes a whole newline-bearing whitespace block and the
text it leaves before the next newline starts with a non-whitespace
character. -/
theorem collapse_bounds (l : List Char) :
    leadNL (collapse l) ≤ 2 ∧ maxNL (collapse l) ≤ 2 :=
  collapse_bounds_aux l.length l (Nat.le_refl _)

/-! ## Bounds for the table rewrite -/

theorem maxNL_append_nonws : ∀ {a : List Char} (x : List Char),
    (∀ c ∈ a, isPySpace c = false) → maxNL (a ++ x) = maxNL x
  | [], _, _ => rfl
  | c :: a, x, h => by
    have hc := h c (List.mem_cons_self c a)
    simp only [List.cons_append, maxNL, hc, if_false, Bool.false_eq_true]
    exact maxNL_append_nonws x (fun y hy => h y (List.mem_cons_of_mem c hy))

theorem leadNL_append_nonws_head {a : List Char} (x : List Char)
    (h : ∀ c ∈ a, isPySpace c = false) (hne : a ≠ []) : leadNL (a ++ x) = 0 := by
  match a, hne with
  | c :: a, _ =>
    exact leadNL_cons_nonws _ (h c (List.mem_cons_self c a))

theorem ticks_nonws : ∀ c ∈ "```".data, isPySpace c = false := by decide

theorem ticks_nl_decomp : "```\n".data = "```".data ++ ['\n'] := by decide

theorem tableSub_copy_step {c : Char} {rest : List Char}
    (hmax : maxNL (c :: rest) ≤ 2)
    (ih : leadNL (tableSub rest) ≤ leadNL rest ∧ maxNL (tableSub rest) ≤ 3) :
    leadNL (c :: tableSub rest) ≤ leadNL (c :: rest) ∧ maxNL (c :: tableSub rest) ≤ 3 := by
  by_cases h : isPySpace c
  · have hlu : leadNL (c :: rest) ≤ maxNL (c :: rest) := leadNL_le_maxNL _
    have h1 := ih.1
    have h2 := ih.2
    refine ⟨?_, ?_⟩
    · simp only [leadNL, h, if_true]
      omega
    · simp only [maxNL, h, if_true, leadNL] at hmax hlu ⊢
      omega
  · exact ⟨by simp [leadNL, h], by simpa [maxNL, h] using ih.2⟩

theorem tableSub_bounds_aux : ∀ (n : Nat) (u : List Char), u.length ≤ n → maxNL u ≤ 2 →
    leadNL (tableSub u) ≤ leadNL u ∧ maxNL (tableSub u) ≤ 3 := by
  intro n
  induction n with
  | zero =>
    intro u hu _
    obtain rfl : u = [] := List.length_eq_zero.mp (Nat.le_zero.mp hu)
    simp [tableSub_nil, leadNL, maxNL]
  | succ n ih =>
    intro u hu hmax
    cases u with
    | nil => simp [tableSub_nil, leadNL, maxNL]
    | cons c rest =>
      have hrest : rest.length ≤ n := by
        simp only [List.length_cons, Nat.succ_le_succ_iff] at hu
        exact hu
      by_cases hpat : tablePat.isPrefixOf (c :: rest) = true
      · cases hsp : splitOnFirst tableDelim ((c :: rest).drop tablePat.length) with
        | some p =>
          obtain ⟨cap, after⟩ := p
          have hdecomp := splitOnFirst_eq hsp
          have hmaxdrop : maxNL ((c :: rest).drop tablePat.length) ≤ 2 :=
            Nat.le_trans (maxNL_of_suffix (List.drop_suffix _ _)) hmax
          have hcap : maxNL cap ≤ 2 := by
            have : maxNL cap ≤ maxNL ((c :: rest).drop tablePat.length) := by
              rw [hdecomp, List.append_assoc]
              exact maxNL_of_append_left cap _
            omega
          have hafter : maxNL after ≤ 2 := by
            have : maxNL after ≤ maxNL ((c :: rest).drop tablePat.length) := by
              refine maxNL_of_suffix ⟨cap ++ tableDelim, ?_⟩
              rw [hdecomp, List.append_assoc]
            omega
          have iha := ih after (Nat.le_trans (splitOnFirst_after_length hsp) hrest) hafter
          rw [tableSub_cons_match hpat hsp]
          have hleadz : leadNL ("```".data ++ (cap ++ ("```\n".data ++ tableSub after))) = 0 :=
            leadNL_append_nonws_head _ ticks_nonws (by decide)
          refine ⟨?_, ?_⟩
          · simpa using Nat.le_trans (Nat.le_of_eq hleadz) (Nat.zero_le _)
          · have e1 : maxNL ("```".data ++ (cap ++ ("```\n".data ++ tableSub after)))
                = maxNL (cap ++ ("```\n".data ++ tableSub after)) :=
              maxNL_append_nonws _ ticks_nonws
            have e2 : "```\n".data ++ tableSub after
                = "```".data ++ ('\n' :: tableSub after) := by
              rw [ticks_nl_decomp, List.append_assoc]
              rfl
            have hmaxY : maxNL ("```\n".data ++ tableSub after) ≤ 3 := by
              rw [e2, maxNL_append_nonws _ ticks_nonws]
              have hl : leadNL (tableSub after) ≤ 2 :=
                Nat.le_trans iha.1 (Nat.le_trans (leadNL_le_maxNL after) hafter)
              have hm := iha.2
              simp only [maxNL, isPySpace_nl, if_true, leadNL, nlMark, if_pos rfl]
              omega
            have hleadY : leadNL ("```\n".data ++ tableSub after) = 0 := by
              rw [e2]
              exact leadNL_append_nonws_head _ ticks_nonws (by decide)
            have happ := maxNL_append_le cap ("```\n".data ++ tableSub after)
            have hfinal : maxNL ("```".data ++ (cap ++ ("```\n".data ++ tableSub after)))
                ≤ 3 := by
              rw [e1]
              omega
            simpa only [List.append_assoc] using hfinal
        | none =>
          rw [tableSub_cons_nomatch hpat hsp]
          exact tableSub_copy_step hmax
            (ih rest hrest (Nat.le_trans (maxNL_cons_le c rest) hmax))
      · rw [tableSub_cons_nopat hpat]
        exact tableSub_copy_step hmax
          (ih rest hrest (Nat.le_trans (maxNL_cons_le c rest) hmax))

/-- After the table rewrite, every whitespace block of the output has at
most three newlines: the rewrite only copies characters of its
already-collapsed input (blocks of at most two newlines) or emits a
replacement whose single trailing newline can at worst abut a two-newline
block of the copied remainder. -/
theorem tableSub_bounds (u : List Char) (h : maxNL u ≤ 2) :
    leadNL (tableSub u) ≤ leadNL u ∧ maxNL (tableSub u) ≤ 3 :=
  tableSub_bounds_aux u.length u (Nat.le_refl _) h

/-- C6: for every markup input (ranging over every possible output of the
external markup-conversion library), the normalizer's output contains no
run of three or more consecutive blank lines.  An interior or trailing run
of three blank lines would be four newline characters separated by
non-newline whitespace only, that is a maximal whitespace block with at
least four newlines, while every whitespace block of the output has at
most three; and a leading run is ruled out because the output's leading
whitespace block holds no newline at all. -/
theorem html_to_markdown_no_three_blank_lines (m : String) :
    maxNL (html_to_markdown m).data ≤ 3 ∧ leadNL (html_to_markdown m).data = 0 := by
  have h1 := collapse_bounds m.data
  have h2 : maxNL (pyStrip (collapse m.data)) ≤ 2 :=
    Nat.le_trans (maxNL_infix_le (pyStrip_infix_of _)) h1.2
  have h3 := tableSub_bounds _ h2
  refine ⟨h3.2, ?_⟩
  have h4 := pyStrip_leadNL (collapse m.data)
  have h5 := h3.1
  rw [h4] at h5
  exact Nat.le_zero.mp h5

/-! ## Idempotence of the newline collapsing, non-idempotence of the whole -/

theorem dropWhile_eq_self_of_takeWhile_nil {p : Char → Bool} {l : List Char}
    (h : l.takeWhile p = []) : l.dropWhile p = l := by
  cases l with
  | nil => rfl
  | cons c r =>
    by_cases hc : p c
    · simp [List.takeWhile_cons, hc] at h
    · simp [List.dropWhile_cons, hc]

theorem collapse_idem_aux : ∀ (n : Nat) (l : List Char), l.length ≤ n →
    collapse (collapse l) = collapse l := by
  intro n
  induction n with
  | zero =>
    intro l hl
    obtain rfl : l = [] := List.length_eq_zero.mp (Nat.le_zero.mp hl)
    rfl
  | succ n ih =>
    intro l hl
    cases l with
    | nil => rfl
    | cons c rest =>
      have hrest : rest.length ≤ n := by
        simp only [List.length_cons, Nat.succ_le_succ_iff] at hl
        exact hl
      by_cases hc : c = '\n'
      · subst hc
        by_cases hmem : '\n' ∈ rest.takeWhile isPySpace
        · rw [collapse_cons_nl_yes hmem]
          have hAspec : ∀ x ∈ wsTail (rest.takeWhile isPySpace),
              isPySpace x = true ∧ x ≠ '\n' :=
            wsTail_spec (fun _ hx => List.mem_takeWhile_imp hx)
          have hsplit : collapse (wsTail (rest.takeWhile isPySpace) ++ rest.dropWhile isPySpace)
              = wsTail (rest.takeWhile isPySpace) ++ collapse (rest.dropWhile isPySpace) :=
            collapse_ws_append _ hAspec
          have harg : (wsTail (rest.takeWhile isPySpace) ++ rest.dropWhile isPySpace).length
              ≤ n := Nat.le_trans (Nat.le_of_lt (collapse_arg_length hmem)) hrest
          have hidem_arg := ih _ harg
          have hidem_tl : collapse (collapse (rest.dropWhile isPySpace))
              = collapse (rest.dropWhile isPySpace) := by
            rw [hsplit, collapse_ws_append (collapse (rest.dropWhile isPySpace)) hAspec]
              at hidem_arg
            exact List.append_cancel_left hidem_arg
          rw [hsplit]
          have htwA : (wsTail (rest.takeWhile isPySpace)
              ++ collapse (rest.dropWhile isPySpace)).takeWhile isPySpace
              = wsTail (rest.takeWhile isPySpace) := by
            rw [takeWhile_append_of_all _ (fun x hx => (hAspec x hx).1),
              (collapse_after_drop rest).2]
            simp
          have hdwA : (wsTail (rest.takeWhile isPySpace)
              ++ collapse (rest.dropWhile isPySpace)).dropWhile isPySpace
              = collapse (rest.dropWhile isPySpace) := by
            rw [dropWhile_append_of_all _ (fun x hx => (hAspec x hx).1)]
            exact dropWhile_eq_self_of_takeWhile_nil (collapse_after_drop rest).2
          have hmem2 : '\n' ∈ ('\n' :: (wsTail (rest.takeWhile isPySpace)
              ++ collapse (rest.dropWhile isPySpace))).takeWhile isPySpace := by
            simp [List.takeWhile_cons, isPySpace_nl]
          rw [collapse_cons_nl_yes hmem2]
          have ht1 : ('\n' :: (wsTail (rest.takeWhile isPySpace)
              ++ collapse (rest.dropWhile isPySpace))).takeWhile isPySpace
              = '\n' :: wsTail (rest.takeWhile isPySpace) := by
            simp [List.takeWhile_cons, isPySpace_nl, htwA]
          have ht2 : ('\n' :: (wsTail (rest.takeWhile isPySpace)
              ++ collapse (rest.dropWhile isPySpace))).dropWhile isPySpace
              = collapse (rest.dropWhile isPySpace) := by
            simp [List.dropWhile_cons, isPySpace_nl, hdwA]
          rw [ht1, ht2, wsTail_cons_nl (fun x hx => (hAspec x hx).2),
            collapse_ws_append (collapse (rest.dropWhile isPySpace)) hAspec, hidem_tl]
        · rw [collapse_cons_nl_no hmem]
          have hws : ∀ x ∈ rest.takeWhile isPySpace, isPySpace x = true ∧ x ≠ '\n' :=
            fun x hx => ⟨List.mem_takeWhile_imp hx, fun e => hmem (e ▸ hx)⟩
          have hrw : collapse rest
              = rest.takeWhile isPySpace ++ collapse (rest.dropWhile isPySpace) := by
            conv_lhs => rw [← List.takeWhile_append_dropWhile isPySpace rest]
            exact collapse_ws_append _ hws
          have htw : (collapse rest).takeWhile isPySpace = rest.takeWhile isPySpace := by
            rw [hrw, takeWhile_append_of_all _ (fun x hx => (hws x hx).1),
              (collapse_after_drop rest).2]
            simp
          have hno2 : '\n' ∉ (collapse rest).takeWhile isPySpace := by
            rw [htw]
            exact hmem
          rw [collapse_cons_nl_no hno2, ih rest hrest]
      · rw [collapse_cons_of_not_nl _ hc, collapse_cons_of_not_nl _ hc, ih rest hrest]

/-- C7 (amended): the blank-line-collapsing stage of the normalizer is
idempotent — re-collapsing already-collapsed text changes nothing — but
the full post-processing `html_to_markdown` is not idempotent even modulo
whitespace, because the redundant-table rewrite can fire again on its own
output (see the counterexample). -/
theorem collapse_newlines_idempotent (l : List Char) :
    collapse (collapse l) = collapse l :=
  collapse_idem_aux l.length l (Nat.le_refl _)

/-- C7 counterexample: applying the normalizer's post-processing to its own
output changes non-whitespace content.  On this input the first pass
rewrites the outer redundant table, and the second pass finds a fresh
match assembled from pieces of the first pass's output, deleting four `|`
characters — not an allowed whitespace collapse. -/
theorem html_to_markdown_not_idempotent :
    (html_to_markdown (html_to_markdown
        "| ``` P | ``` Q ``` |\n| --- | R ``` |\n| --- |")).data.count '|' = 0
      ∧ (html_to_markdown "| ``` P | ``` Q ``` |\n| --- | R ``` |\n| --- |").data.count '|'
        = 4 := by
  decide

/-! ## run_ctx_agent.py: configuration (lines 20-28)

Python floats are modelled as rationals; every constant below is exactly
representable in binary floating point, and the comparisons the claims
make at these values agree between floats and rationals. -/

def RELEVANCE_THRESHOLD : ℚ := 0.80

def CURRENCY_THRESHOLD : ℚ := 1.0

def REQUEST_DELAY : ℚ := 2.0

def MAX_RETRIES : Nat := 3

def BACKOFF_FACTOR : ℚ := 2

/-! ## ContextualValidator._query_with_retry (lines 61-91)

One `query_contextual_agent` call either returns a response, raises
`requests.exceptions.HTTPError` with a status code, or raises some other
exception.  The external HTTP client is abstracted as a function from the
attempt number to the outcome of the call made on that attempt.  The
`_rate_limit_delay` sleep of line 66 is pacing, not backoff, and is not
recorded; `sleeps` records the `time.sleep(wait_time)` backoff waits of
lines 76 and 86 in order. -/

inductive QueryOutcome where
  | success (response : String)
  | httpError (status : Nat)
  | otherError

/-- The `for attempt in range(MAX_RETRIES)` loop: `remaining` is the number
of loop iterations left (`MAX_RETRIES - attempt`), kept as explicit fuel.
A 429 backs off and retries; any other HTTP status returns `None` at once;
a non-HTTP exception backs off and retries unless this was the last
attempt; an exhausted loop returns `None`. -/
def queryWithRetryGo (outcome : Nat → QueryOutcome) :
    Nat → Nat → List ℚ → Option String × List ℚ
  | 0, _, sleeps => (none, sleeps)
  | remaining + 1, attempt, sleeps =>
    match outcome attempt with
    | .success r => (some r, sleeps)
    | .httpError s =>
      if s = 429 then
        queryWithRetryGo outcome remaining (attempt + 1)
          (sleeps ++ [REQUEST_DELAY * BACKOFF_FACTOR ^ attempt])
      else (none, sleeps)
    | .otherError =>
      if attempt < MAX_RETRIES - 1 then
        queryWithRetryGo outcome remaining (attempt + 1)
          (sleeps ++ [REQUEST_DELAY * BACKOFF_FACTOR ^ attempt])
      else (none, sleeps)

def query_with_retry (outcome : Nat → QueryOutcome) : Option String × List ℚ :=
  queryWithRetryGo outcome MAX_RETRIES 0 []

/-- C8: a rate-limited call is retried up to the fixed maximum of 3
attempts with backoff `REQUEST_DELAY * BACKOFF_FACTOR ^ attempt`; a call
rate-limited on its first two attempts that succeeds on the third returns
the response with exactly the two backoff sleeps 2 and 4; a non-429 HTTP
error returns failure immediately with no backoff sleep; three straight
rate limits exhaust the retries and surface a definitive failure. -/
theorem query_with_retry_spec (f : Nat → QueryOutcome) (r : String) (s : Nat)
    (hs : s ≠ 429) :
    (f 0 = .httpError 429 → f 1 = .httpError 429 → f 2 = .success r →
      query_with_retry f = (some r, [2, 4]))
    ∧ (f 0 = .httpError s → query_with_retry f = (none, []))
    ∧ ((∀ i, f i = .httpError 429) → query_with_retry f = (none, [2, 4, 8])) := by
  refine ⟨?_, ?_, ?_⟩
  · intro h0 h1 h2
    simp only [query_with_retry, MAX_RETRIES, queryWithRetryGo, h0, h1, h2, if_pos rfl]
    norm_num [REQUEST_DELAY, BACKOFF_FACTOR]
  · intro h0
    simp only [query_with_retry, MAX_RETRIES, queryWithRetryGo, h0]
    rw [if_neg hs]
  · intro hall
    simp only [query_with_retry, MAX_RETRIES, queryWithRetryGo, hall 0, hall 1, hall 2,
      if_pos rfl]
    norm_num [REQUEST_DELAY, BACKOFF_FACTOR]

def retryOutcome1 : Nat → QueryOutcome := fun n =>
  if n ≤ 1 then .httpError 429 else .success "ok"

def retryOutcome2 : Nat → QueryOutcome := fun _ => .httpError 500

def retryOutcome3 : Nat → QueryOutcome := fun _ => .httpError 429

/-- Witness: the three retry scenarios at concrete outcome sequences. -/
theorem query_with_retry_spec_witness :
    query_with_retry retryOutcome1 = (some "ok", [2, 4])
    ∧ query_with_retry retryOutcome2 = (none, [])
    ∧ query_with_retry retryOutcome3 = (none, [2, 4, 8]) :=
  ⟨(query_with_retry_spec retryOutcome1 "ok" 500 (by decide)).1 rfl rfl rfl,
   (query_with_retry_spec retryOutcome2 "ok" 500 (by decide)).2.1 rfl,
   (query_with_retry_spec retryOutcome3 "ok" 500 (by decide)).2.2 (fun _ => rfl)⟩

/-! ## ContextualValidator.validate_all_pages (lines 266-357)

The loop's per-record interaction with the agent, the parser and the
database is collapsed into one observed outcome per manifest record, so a
manifest is a list of `Page × PageOutcome` pairs.  The periodic
`_save_progress` call writes a checkpoint file and changes no counter, so
it is omitted; `KeyboardInterrupt` aborts the loop early and is outside
these claims. -/

/-- The fields of a manifest record that the loop reads directly. -/
structure Page where
  id : String
  title : String
  url : String

/-- What one loop iteration observes: `noResponse` is `_query_with_retry`
returning `None` (line 304); `noScores` is a parse leaving either score
absent (line 313); `scored r c ok` carries both parsed scores and whether
`_save_to_database` succeeds; `exn` is any other exception caught by the
per-record handler (line 352). -/
inductive PageOutcome where
  | noResponse
  | noScores
  | scored (relevance currency : ℚ) (saveOk : Bool)
  | exn

/-- One entry of `results['details']` (lines 334-341). -/
structure Detail where
  index : Nat
  title : String
  id : String
  relevance : ℚ
  currency : ℚ
  validated : Bool

/-- The `results` dictionary (lines 268-275). -/
structure RunResults where
  processed : Nat
  validated : Nat
  saved : Nat
  errors : Nat
  skipped : Nat
  details : List Detail

/-- Line 321: `relevance_score >= RELEVANCE_THRESHOLD and currency_score >=
CURRENCY_THRESHOLD`. -/
def meetsThresholds (relevance currency : ℚ) : Bool :=
  decide (RELEVANCE_THRESHOLD ≤ relevance) && decide (CURRENCY_THRESHOLD ≤ currency)

/-- The body of one loop iteration (lines 285-341). -/
def processPage (res : RunResults) (currentIndex : Nat) (p : Page) (o : PageOutcome) :
    RunResults :=
  let res1 := { res with processed := res.processed + 1 }
  match o with
  | .noResponse => { res1 with errors := res1.errors + 1 }
  | .noScores => { res1 with errors := res1.errors + 1 }
  | .exn => { res1 with errors := res1.errors + 1 }
  | .scored r c saveOk =>
    let res2 :=
      if meetsThresholds r c then
        if saveOk then
          { res1 with validated := res1.validated + 1, saved := res1.saved + 1 }
        else
          { res1 with validated := res1.validated + 1, errors := res1.errors + 1 }
      else res1
    { res2 with
        details := res2.details
          ++ [⟨currentIndex, p.title, p.id, r, c, meetsThresholds r c⟩] }

def validateGo (start : Nat) : List (Page × PageOutcome) → Nat → RunResults → RunResults
  | [], _, res => res
  | (p, o) :: rest, i, res => validateGo start rest (i + 1) (processPage res (start + i) p o)

/-- Lines 277-280: `metadata[start_index:]`, then `[:batch_size]` only when
`batch_size` is truthy — a batch size of 0 is falsy in Python and does not
truncate. -/
def pagesToProcess (metadata : List (Page × PageOutcome)) (start_index : Nat)
    (batch_size : Option Nat) : List (Page × PageOutcome) :=
  let l := metadata.drop start_index
  match batch_size with
  | some b => if b = 0 then l else l.take b
  | none => l

def validate_all_pages (metadata : List (Page × PageOutcome)) (start_index : Nat)
    (batch_size : Option Nat) : RunResults :=
  validateGo start_index (pagesToProcess metadata start_index batch_size) 0
    { processed := 0, validated := 0, saved := 0, errors := 0,
      skipped := start_index, details := [] }

theorem processPage_processed (res : RunResults) (i : Nat) (p : Page) (o : PageOutcome) :
    (processPage res i p o).processed = res.processed + 1 := by
  cases o with
  | scored r c ok =>
    by_cases h : meetsThresholds r c = true <;> cases ok <;>
      simp [processPage, h]
  | noResponse => rfl
  | noScores => rfl
  | exn => rfl

theorem processPage_skipped (res : RunResults) (i : Nat) (p : Page) (o : PageOutcome) :
    (processPage res i p o).skipped = res.skipped := by
  cases o with
  | scored r c ok =>
    by_cases h : meetsThresholds r c = true <;> cases ok <;>
      simp [processPage, h]
  | noResponse => rfl
  | noScores => rfl
  | exn => rfl

theorem processPage_saved_validated (res : RunResults) (i : Nat) (p : Page)
    (o : PageOutcome) (h1 : res.saved ≤ res.validated)
    (h2 : res.validated ≤ res.processed) :
    (processPage res i p o).saved ≤ (processPage res i p o).validated
    ∧ (processPage res i p o).validated ≤ (processPage res i p o).processed := by
  cases o with
  | scored r c ok =>
    by_cases h : meetsThresholds r c = true <;> cases ok <;>
      simp [processPage, h] <;> omega
  | noResponse => exact ⟨h1, by simp [processPage]; omega⟩
  | noScores => exact ⟨h1, by simp [processPage]; omega⟩
  | exn => exact ⟨h1, by simp [processPage]; omega⟩

theorem validateGo_counters (start : Nat) :
    ∀ (pages : List (Page × PageOutcome)) (i : Nat) (res : RunResults),
      (validateGo start pages i res).processed = res.processed + pages.length
      ∧ (validateGo start pages i res).skipped = res.skipped
      ∧ (res.saved ≤ res.validated → res.validated ≤ res.processed →
          (validateGo start pages i res).saved ≤ (validateGo start pages i res).validated
          ∧ (validateGo start pages i res).validated
            ≤ (validateGo start pages i res).processed)
  | [], _, res => by
    refine ⟨by simp [validateGo], by simp [validateGo], fun h1 h2 => ?_⟩
    simp only [validateGo]
    exact ⟨h1, h2⟩
  | (p, o) :: rest, i, res => by
    have ih := validateGo_counters start rest (i + 1) (processPage res (start + i) p o)
    refine ⟨?_, ?_, ?_⟩
    · rw [validateGo, ih.1, processPage_processed]
      simp only [List.length_cons]
      omega
    · rw [validateGo, ih.2.1, processPage_skipped]
    · intro h1 h2
      have hpp := processPage_saved_validated res (start + i) p o h1 h2
      exact ih.2.2 hpp.1 hpp.2

/-- C10: when `validate_all_pages` returns, `saved ≤ validated ≤ processed`,
and `processed` equals the number of manifest records iterated — the length
of the slice `metadata[start_index:][:batch_size]` — since every iterated
record increments `processed` exactly once whatever its outcome. -/
theorem validate_all_pages_counter_invariants (metadata : List (Page × PageOutcome))
    (start_index : Nat) (batch_size : Option Nat) :
    (validate_all_pages metadata start_index batch_size).saved
      ≤ (validate_all_pages metadata start_index batch_size).validated
    ∧ (validate_all_pages metadata start_index batch_size).validated
      ≤ (validate_all_pages metadata start_index batch_size).processed
    ∧ (validate_all_pages metadata start_index batch_size).processed
      = (pagesToProcess metadata start_index batch_size).length := by
  have h := validateGo_counters start_index
    (pagesToProcess metadata start_index batch_size) 0
    { processed := 0, validated := 0, saved := 0, errors := 0,
      skipped := start_index, details := [] }
  have hinv := h.2.2 (by simp) (by simp)
  exact ⟨hinv.1, hinv.2, by simpa [validate_all_pages] using h.1⟩

/-- C9: a resumed run processes exactly the records from `start_index`
through the end of the manifest (optionally capped at `batch_size`) and
reports `skipped = start_index`; in particular with `start_index = 7` and a
manifest of 20 records it processes the 13 records at indices 7 through 19
and reports `skipped = 7`. -/
theorem validate_all_pages_resume_spec (metadata : List (Page × PageOutcome)) :
    (∀ start_index : Nat,
      (validate_all_pages metadata start_index none).processed
        = metadata.length - start_index
      ∧ (validate_all_pages metadata start_index none).skipped = start_index)
    ∧ (∀ start_index b, b ≠ 0 →
      (validate_all_pages metadata start_index (some b)).processed
        = min b (metadata.length - start_index)
      ∧ (validate_all_pages metadata start_index (some b)).skipped = start_index)
    ∧ (metadata.length = 20 →
      (validate_all_pages metadata 7 none).processed = 13
      ∧ (validate_all_pages metadata 7 none).skipped = 7) := by
  have hgen : ∀ (start_index : Nat) (batch_size : Option Nat),
      (validate_all_pages metadata start_index batch_size).processed
        = (pagesToProcess metadata start_index batch_size).length
      ∧ (validate_all_pages metadata start_index batch_size).skipped = start_index := by
    intro start_index batch_size
    have h := validateGo_counters start_index
      (pagesToProcess metadata start_index batch_size) 0
      { processed := 0, validated := 0, saved := 0, errors := 0,
        skipped := start_index, details := [] }
    exact ⟨by simpa [validate_all_pages] using h.1,
      by simpa [validate_all_pages] using h.2.1⟩
  refine ⟨?_, ?_, ?_⟩
  · intro start_index
    have h := hgen start_index none
    simpa [pagesToProcess] using h
  · intro start_index b hb
    have h := hgen start_index (some b)
    simpa [pagesToProcess, hb, Nat.min_comm] using h
  · intro hlen
    have h := hgen 7 none
    rw [h.1]
    simp [pagesToProcess, hlen]
    exact h.2

/-- A concrete 20-record manifest for the resumption witness. -/
def manifest20 : List (Page × PageOutcome) :=
  List.replicate 20 (⟨"0", "t", "u"⟩, PageOutcome.exn)

/-- Witness: resuming a concrete 20-record manifest from index 7 processes
13 records and reports 7 skipped; a batch size of 5 caps processing. -/
theorem validate_all_pages_resume_spec_witness :
    (validate_all_pages manifest20 7 none).processed = 13
    ∧ (validate_all_pages manifest20 7 none).skipped = 7
    ∧ (validate_all_pages manifest20 7 (some 5)).processed = 5 := by
  refine ⟨?_, ?_, ?_⟩
  · exact ((validate_all_pages_resume_spec manifest20).2.2 (by simp [manifest20])).1
  · exact ((validate_all_pages_resume_spec manifest20).2.2 (by simp [manifest20])).2
  · have h := ((validate_all_pages_resume_spec manifest20).2.1 7 5 (by decide)).1
    rw [h]
    simp [manifest20]

/-- C1: a scored record passes validation iff its relevance score is at
least 0.80 and its currency score is at least 1.0; in the pipeline a single
scored record is counted validated exactly under that condition, and at the
three boundary score pairs of the claim the outcomes are pass, fail, fail. -/
theorem validate_pass_iff_thresholds :
    (∀ relevance currency : ℚ, meetsThresholds relevance currency = true
      ↔ (0.80 ≤ relevance ∧ 1 ≤ currency))
    ∧ (∀ (p : Page) (r c : ℚ) (ok : Bool),
        (validate_all_pages [(p, PageOutcome.scored r c ok)] 0 none).validated
          = if meetsThresholds r c then 1 else 0)
    ∧ meetsThresholds 0.80 1 = true
    ∧ meetsThresholds 0.79 1 = false
    ∧ meetsThresholds 0.95 0.99 = false := by
  refine ⟨?_, ?_,
    by norm_num [meetsThresholds, RELEVANCE_THRESHOLD, CURRENCY_THRESHOLD],
    by norm_num [meetsThresholds, RELEVANCE_THRESHOLD, CURRENCY_THRESHOLD],
    by norm_num [meetsThresholds, RELEVANCE_THRESHOLD, CURRENCY_THRESHOLD]⟩
  · intro relevance currency
    norm_num [meetsThresholds, RELEVANCE_THRESHOLD, CURRENCY_THRESHOLD]
  · intro p r c ok
    by_cases h : meetsThresholds r c = true <;> cases ok <;>
      simp [validate_all_pages, pagesToProcess, validateGo, processPage, h]

/-! ## db/models.py ValidatedURL and the upsert of _save_to_database

The relational store is modelled as the list of its `validated_urls` rows
in insertion order; the autoincrement integer primary key plays no part in
the claims and is omitted.  `hashlib.sha256` and `datetime.strptime` are
external and abstracted as `hashFn` and `parseDate`; the validation
timestamp is passed in explicitly (`func.now()` on insert, `datetime.now()`
on update).  `add_validated_url` returns the stored row's data on success
and `None` on the unique-constraint `IntegrityError` (the session is
rolled back, so the store is unchanged); threading the store state
explicitly, success carries the new store. -/

structure PageRecord where
  id : String
  url : String
  title : String
  content : String
  breadcrumbs : String
  formatted_date : String

structure PageMetadata where
  id : String
  breadcrumbs : String
  original_date : String

structure ValidatedURL where
  url : String
  title : String
  content_hash : Option String
  last_modified : Option String
  validation_timestamp : Nat
  ctx_relevance_score : ℚ
  ctx_currency_score : ℚ
  is_current : Bool
  page_metadata : PageMetadata

/-- `DatabaseManager.add_validated_url` (database.py lines 63-100): insert
one row; the unique constraint on `url` raises `IntegrityError` when a row
with that url already exists, returning `None` with the store unchanged. -/
def add_validated_url (db : List ValidatedURL) (row : ValidatedURL) :
    Option (List ValidatedURL) :=
  if db.any (fun e => e.url == row.url) then none
  else some (db ++ [row])

/-- The row `_save_to_database` inserts (run_ctx_agent.py lines 202-239):
`content_hash` is the hash of the content when the content is non-empty
(line 213), `last_modified` the parsed `formatted_date` when it parses
(lines 216-221), `is_current` the model's default `True`. -/
def mkRow (hashFn : String → String) (parseDate : String → Option String)
    (page : PageRecord) (relevance currency : ℚ) (now : Nat) : ValidatedURL where
  url := page.url
  title := page.title
  content_hash := if page.content = "" then none else some (hashFn page.content)
  last_modified := parseDate page.formatted_date
  validation_timestamp := now
  ctx_relevance_score := relevance
  ctx_currency_score := currency
  is_current := true
  page_metadata := ⟨page.id, page.breadcrumbs, page.formatted_date⟩

/-- The in-place update of the existing row (run_ctx_agent.py lines
249-256): title, hash, last-modified, both scores, timestamp and metadata
are overwritten; `url` and `is_current` are left as they are. -/
def updateRow (hashFn : String → String) (parseDate : String → Option String)
    (page : PageRecord) (relevance currency : ℚ) (now : Nat)
    (e : ValidatedURL) : ValidatedURL :=
  { e with
      title := page.title
      content_hash := if page.content = "" then none else some (hashFn page.content)
      last_modified := parseDate page.formatted_date
      ctx_relevance_score := relevance
      ctx_currency_score := currency
      validation_timestamp := now
      page_metadata := ⟨page.id, page.breadcrumbs, page.formatted_date⟩ }

/-- `session.query(...).filter(url == url).first()` then mutate: update the
first row carrying the url. -/
def updateFirst (url : String) (upd : ValidatedURL → ValidatedURL) :
    List ValidatedURL → List ValidatedURL
  | [] => []
  | e :: rest => if e.url == url then upd e :: rest else e :: updateFirst url upd rest

/-- `_save_to_database` (run_ctx_agent.py lines 202-264): reject an empty
url; try the insert; on the duplicate-url conflict, update the existing
row in place and still report success. -/
def save_to_database (hashFn : String → String) (parseDate : String → Option String)
    (db : List ValidatedURL) (page : PageRecord) (relevance currency : ℚ)
    (now : Nat) : List ValidatedURL × Bool :=
  if page.url = "" then (db, false)
  else
    match add_validated_url db (mkRow hashFn parseDate page relevance currency now) with
    | some db2 => (db2, true)
    | none =>
      if db.any (fun e => e.url == page.url) then
        (updateFirst page.url (updateRow hashFn parseDate page relevance currency now) db,
          true)
      else (db, false)

/-- At most one stored row per url, phrased on the projected url column. -/
def urlNodup (db : List ValidatedURL) : Prop :=
  (db.map (fun e => e.url)).Nodup

theorem updateFirst_map_url (url : String) (upd : ValidatedURL → ValidatedURL)
    (hupd : ∀ e, (upd e).url = e.url) :
    ∀ l : List ValidatedURL,
      (updateFirst url upd l).map (fun e => e.url) = l.map (fun e => e.url)
  | [] => rfl
  | e :: rest => by
    by_cases h : (e.url == url) = true
    · simp [updateFirst, h, hupd]
    · simp only [updateFirst, h, if_false, Bool.false_eq_true, List.map_cons]
      rw [updateFirst_map_url url upd hupd rest]

theorem updateFirst_append_no_match (url : String) (upd : ValidatedURL → ValidatedURL) :
    ∀ {a : List ValidatedURL} (b : List ValidatedURL),
      (∀ e ∈ a, ¬ e.url = url) → updateFirst url upd (a ++ b) = a ++ updateFirst url upd b
  | [], _, _ => rfl
  | e :: a, b, h => by
    have he : (e.url == url) = false := by
      simpa using h e (List.mem_cons_self e a)
    simp only [List.cons_append, updateFirst, he, if_false, Bool.false_eq_true,
      List.append_eq]
    rw [updateFirst_append_no_match url upd b
      (fun x hx => h x (List.mem_cons_of_mem e hx))]

theorem any_url_eq_false {db : List ValidatedURL} {u : String}
    (h : db.any (fun e => e.url == u) = false) : ∀ e ∈ db, ¬ e.url = u := by
  intro e he
  have := List.any_eq_false.mp h e he
  simpa using this

theorem save_to_database_nodup (hashFn : String → String)
    (parseDate : String → Option String) (page : PageRecord)
    (hurl : page.url ≠ "") (db : List ValidatedURL) (r c : ℚ) (t : Nat)
    (hnd : urlNodup db) :
    urlNodup (save_to_database hashFn parseDate db page r c t).1 := by
  rw [save_to_database, if_neg hurl]
  by_cases hany : db.any (fun e => e.url == page.url) = true
  · rw [add_validated_url, if_pos (by simpa [mkRow] using hany)]
    simp only [hany, if_true]
    rw [urlNodup, updateFirst_map_url page.url
      (updateRow hashFn parseDate page r c t) (fun e => rfl)]
    exact hnd
  · have hany' : db.any (fun e => e.url == page.url) = false := by
      simpa using hany
    rw [add_validated_url, if_neg (by simp [mkRow, hany'])]
    rw [urlNodup, List.map_append]
    simp only [List.map_cons, List.map_nil]
    refine List.Nodup.append hnd (List.nodup_singleton _) ?_
    intro u hu hu'
    simp only [List.mem_singleton] at hu'
    rcases List.mem_map.mp hu with ⟨e, he, rfl⟩
    exact any_url_eq_false hany' e he (by simpa [mkRow] using hu')

/-- C2: with a fresh url, the first passing validation inserts one row and
the second updates it in place: both saves report success (the
duplicate-key conflict is not a failure), the store keeps at most one row
per url, and afterwards the url's single row carries the second
validation's scores and timestamp.  The final conjunct is the general
invariant: every save, insert or update, preserves uniqueness of urls. -/
theorem save_to_database_upsert_unique (hashFn : String → String)
    (parseDate : String → Option String) (db : List ValidatedURL)
    (page : PageRecord) (r1 c1 r2 c2 : ℚ) (t1 t2 : Nat)
    (hurl : page.url ≠ "") (hnd : urlNodup db)
    (hnew : db.any (fun e => e.url == page.url) = false) :
    (save_to_database hashFn parseDate db page r1 c1 t1).2 = true
    ∧ (save_to_database hashFn parseDate
        (save_to_database hashFn parseDate db page r1 c1 t1).1 page r2 c2 t2).2 = true
    ∧ urlNodup (save_to_database hashFn parseDate
        (save_to_database hashFn parseDate db page r1 c1 t1).1 page r2 c2 t2).1
    ∧ (save_to_database hashFn parseDate
        (save_to_database hashFn parseDate db page r1 c1 t1).1 page r2 c2 t2).1.filter
          (fun e => e.url == page.url)
      = [mkRow hashFn parseDate page r2 c2 t2]
    ∧ (∀ (db' : List ValidatedURL) (r c : ℚ) (t : Nat), urlNodup db' →
        urlNodup (save_to_database hashFn parseDate db' page r c t).1) := by
  have hs1 : save_to_database hashFn parseDate db page r1 c1 t1
      = (db ++ [mkRow hashFn parseDate page r1 c1 t1], true) := by
    rw [save_to_database, if_neg hurl, add_validated_url,
      if_neg (by simp [mkRow, hnew])]
  have hany2 : (db ++ [mkRow hashFn parseDate page r1 c1 t1]).any
      (fun e => e.url == page.url) = true := by
    simp [mkRow]
  have hs2 : save_to_database hashFn parseDate
      (db ++ [mkRow hashFn parseDate page r1 c1 t1]) page r2 c2 t2
      = (db ++ [mkRow hashFn parseDate page r2 c2 t2], true) := by
    rw [save_to_database, if_neg hurl, add_validated_url,
      if_pos (by simpa [mkRow] using hany2)]
    simp only [hany2, if_true]
    rw [updateFirst_append_no_match _ _ _ (any_url_eq_false hnew)]
    simp [updateFirst, mkRow, updateRow]
  refine ⟨by rw [hs1], by rw [hs1, hs2], ?_, ?_, ?_⟩
  · rw [hs1, hs2]
    rw [urlNodup, List.map_append]
    simp only [List.map_cons, List.map_nil]
    refine List.Nodup.append hnd (List.nodup_singleton _) ?_
    intro u hu hu'
    simp only [List.mem_singleton] at hu'
    rcases List.mem_map.mp hu with ⟨e, he, rfl⟩
    exact any_url_eq_false hnew e he (by simpa [mkRow] using hu')
  · rw [hs1, hs2]
    rw [List.filter_append]
    have h1 : db.filter (fun e => e.url == page.url) = [] := by
      rw [List.filter_eq_nil]
      intro e he
      simpa using any_url_eq_false hnew e he
    rw [h1]
    simp [mkRow]
  · intro db' r c t hnd'
    exact save_to_database_nodup hashFn parseDate page hurl db' r c t hnd'

/-- Witness inputs for the upsert: an empty store and a concrete page. -/
def upsertPage : PageRecord :=
  ⟨"0001", "https://weshare.advantest.com/p", "Title", "Body", "Root", "01/02/25"⟩

/-- Witness: saving the same page twice on an empty store succeeds twice
and leaves exactly the one row of the second validation. -/
theorem save_to_database_upsert_unique_witness :
    (save_to_database (fun s => s) (fun _ => none) [] upsertPage (9/10) 1 0).2 = true
    ∧ (save_to_database (fun s => s) (fun _ => none)
        (save_to_database (fun s => s) (fun _ => none) [] upsertPage (9/10) 1 0).1
        upsertPage (95/100) 1 5).2 = true
    ∧ (save_to_database (fun s => s) (fun _ => none)
        (save_to_database (fun s => s) (fun _ => none) [] upsertPage (9/10) 1 0).1
        upsertPage (95/100) 1 5).1.filter (fun e => e.url == upsertPage.url)
      = [mkRow (fun s => s) (fun _ => none) upsertPage (95/100) 1 5] := by
  have h := save_to_database_upsert_unique (fun s => s) (fun _ => none) []
    upsertPage (9/10) 1 (95/100) 1 0 5 (by decide) (by simp [urlNodup]) rfl
  exact ⟨h.1, h.2.1, h.2.2.2.1⟩

/-! ## ContextualValidator._parse_agent_response (lines 131-200)

At its call site (line 311) the function receives the agent reply's
message content, a string.  `json.loads` and `float(...)` on strings are
external and abstracted as `loads` (returning `none` on
`json.JSONDecodeError`) and `strFloat` (returning `none` on `ValueError`).
The function catches `json.JSONDecodeError`, `KeyError`, `TypeError` and
`ValueError` and turns them into `(None, None)`; any other exception
escapes, which `Except.error` records. -/

inductive Json where
  | null
  | bool (b : Bool)
  | num (q : ℚ)
  | str (s : String)
  | arr (items : List Json)
  | obj (fields : List (String × Json))

/-- Python `dict.get` over the parsed object's fields. -/
def Json.lookup : List (String × Json) → String → Option Json
  | [], _ => none
  | (k, v) :: rest, key => if k = key then some v else Json.lookup rest key

/-- Python `float(x)` on a JSON value: numbers and booleans coerce, strings
go through the abstracted numeric parse (`ValueError` when it fails), and
`None`, lists and dicts raise `TypeError`; both exception kinds are caught
by the caller's `except` clause, so `none` stands for either. -/
def pyFloat (strFloat : String → Option ℚ) : Json → Option ℚ
  | .num q => some q
  | .bool b => some (if b then 1 else 0)
  | .str s => strFloat s
  | .null => none
  | .arr _ => none
  | .obj _ => none

/-- Does `sub` occur in `l` (Python's `in` on strings)? -/
def listContains (sub : List Char) : List Char → Bool
  | [] => sub.isEmpty
  | c :: rest => sub.isPrefixOf (c :: rest) || listContains sub rest

def strContains (s sub : String) : Bool := listContains sub.data s.data

def pyStripString (s : String) : String := ⟨pyStrip s.data⟩

/-- Lines 160-167: strip a markdown code fence if present.  With a
```` ```json ```` fence the content is
`s.split('```json')[1].split('```')[0].strip()`; with a bare fence it is
`s.split('```')[1].split('```')[0].strip()`, and the second split is the
identity because split parts cannot contain the separator. -/
def stripFence (s : String) : String :=
  if strContains s "```json" then
    pyStripString ((((s.splitOn "```json").getD 1 "").splitOn "```").headD "")
  else if strContains s "```" then
    pyStripString ((s.splitOn "```").getD 1 "")
  else s

/-- Range check of lines 179-189: a coerced score outside `[0, 1]` is
discarded (set to `None`), never clamped. -/
def gateScore (q : ℚ) : Option ℚ := if 0 ≤ q ∧ q ≤ 1 then some q else none

/-- Lines 175-191: extract both fields from the parsed object, coerce and
range-check.  `none` models the caught `TypeError`/`ValueError` of a
failing coercion of a present value, which aborts the whole extraction;
per-field absence (`dict.get` returning `None`) only leaves that field's
score absent. -/
def extractScores (strFloat : String → Option ℚ) (fields : List (String × Json)) :
    Option (Option ℚ × Option ℚ) :=
  match Json.lookup fields "relevance_score" with
  | none =>
    match Json.lookup fields "currency_score" with
    | none => some (none, none)
    | some cv => (pyFloat strFloat cv).map (fun cq => (none, gateScore cq))
  | some rv =>
    match pyFloat strFloat rv with
    | none => none
    | some rq =>
      match Json.lookup fields "currency_score" with
      | none => some (gateScore rq, none)
      | some cv => (pyFloat strFloat cv).map (fun cq => (gateScore rq, gateScore cq))

/-- Lines 131-200, at the call site's string argument (line 311 passes the
reply's message content).  An empty string is falsy (line 134).  Because
the argument is a string, `'message' in response_data` and the two checks
after it are substring tests, and when one succeeds the subsequent
`response_data['message']` raises `TypeError`, which the `except` clause
turns into `(None, None)`.  Otherwise the string is the message content;
its fence-stripped form is JSON-parsed; a parse failure is caught; on a
parsed object the scores are extracted.  On a parsed non-object,
`data.get("relevance_score")` raises `AttributeError`, which no `except`
clause catches: `Except.error`. -/
def parse_agent_response (loads : String → Option Json) (strFloat : String → Option ℚ)
    (response_data : String) : Except Unit (Option ℚ × Option ℚ) :=
  if response_data = "" then .ok (none, none)
  else if strContains response_data "message" then .ok (none, none)
  else if strContains response_data "content" then .ok (none, none)
  else if strContains response_data "response" then .ok (none, none)
  else
    match loads (stripFence response_data) with
    | none => .ok (none, none)
    | some (.obj fields) =>
      match extractScores strFloat fields with
      | none => .ok (none, none)
      | some rc => .ok rc
    | some _ => .error ()

/-- A returned score is absent or lies in the unit interval. -/
def okScore (o : Option ℚ) : Prop := ∀ q, o = some q → 0 ≤ q ∧ q ≤ 1

theorem okScore_none : okScore none := fun _ hq => by cases hq

theorem okScore_gateScore (q : ℚ) : okScore (gateScore q) := by
  intro q' hq'
  rw [gateScore] at hq'
  split at hq'
  · next hr =>
    cases hq'
    exact hr
  · cases hq'

theorem extractScores_ok (strFloat : String → Option ℚ)
    (fields : List (String × Json)) (rc : Option ℚ × Option ℚ)
    (h : extractScores strFloat fields = some rc) : okScore rc.1 ∧ okScore rc.2 := by
  rw [extractScores] at h
  split at h
  · split at h
    · cases h
      exact ⟨okScore_none, okScore_none⟩
    · rcases Option.map_eq_some'.mp h with ⟨cq, _, rfl⟩
      exact ⟨okScore_none, okScore_gateScore cq⟩
  · split at h
    · cases h
    · split at h
      · cases h
        exact ⟨okScore_gateScore _, okScore_none⟩
      · rcases Option.map_eq_some'.mp h with ⟨cq, _, rfl⟩
        exact ⟨okScore_gateScore _, okScore_gateScore cq⟩

/-- `json.loads` at the counterexample's input: a JSON array literal
parses to a list. -/
def loadsArr : String → Option Json := fun s =>
  if s = "[1, 2, 3]" then some (.arr [.num 1, .num 2, .num 3]) else none

/-- C3 counterexample: a reply whose JSON content parses to an array — as
`json.loads("[1, 2, 3]")` does — makes `_parse_agent_response` raise an
uncaught `AttributeError` at `data.get("relevance_score")` (a list has no
`.get`; only `json.JSONDecodeError`, `KeyError`, `TypeError` and
`ValueError` are caught), instead of returning `(absent, absent)` as the
claim states for every malformed reply. -/
theorem parse_agent_response_array_raises :
    parse_agent_response loadsArr (fun _ => none) "[1, 2, 3]" = .error () := by
  rfl

/-- C3 (amended): each returned score is absent or a value in `[0, 1]`, and
an out-of-range value is discarded for its field alone, never clamped and
never kept (last conjunct: an out-of-range relevance with an in-range
currency yields `(absent, that currency)`); non-JSON content yields
`(absent, absent)` without raising; but the parse can raise — exactly when
the reply's JSON content parses to a non-object. -/
theorem parse_agent_response_scores_in_range (loads : String → Option Json)
    (strFloat : String → Option ℚ) (s : String) :
    (∀ r c, parse_agent_response loads strFloat s = .ok (r, c) → okScore r ∧ okScore c)
    ∧ (∀ e, parse_agent_response loads strFloat s = .error e →
        ∃ j, loads (stripFence s) = some j ∧ ∀ fields, j ≠ .obj fields)
    ∧ (s ≠ "" → strContains s "message" = false → strContains s "content" = false →
        strContains s "response" = false → loads (stripFence s) = none →
        parse_agent_response loads strFloat s = .ok (none, none))
    ∧ (∀ fields rq cq, s ≠ "" → strContains s "message" = false →
        strContains s "content" = false → strContains s "response" = false →
        loads (stripFence s) = some (.obj fields) →
        Json.lookup fields "relevance_score" = some (.num rq) →
        Json.lookup fields "currency_score" = some (.num cq) →
        ¬ (0 ≤ rq ∧ rq ≤ 1) → 0 ≤ cq → cq ≤ 1 →
        parse_agent_response loads strFloat s = .ok (none, some cq)) := by
  refine ⟨?_, ?_, ?_, ?_⟩
  · intro r c h
    rw [parse_agent_response] at h
    split at h
    · cases h
      exact ⟨okScore_none, okScore_none⟩
    split at h
    · cases h
      exact ⟨okScore_none, okScore_none⟩
    split at h
    · cases h
      exact ⟨okScore_none, okScore_none⟩
    split at h
    · cases h
      exact ⟨okScore_none, okScore_none⟩
    split at h
    · cases h
      exact ⟨okScore_none, okScore_none⟩
    · next fields heq =>
      split at h
      · cases h
        exact ⟨okScore_none, okScore_none⟩
      · next rc hrc =>
        cases h
        exact extractScores_ok strFloat fields (r, c) hrc
    · cases h
  · intro e h
    rw [parse_agent_response] at h
    split at h
    · cases h
    split at h
    · cases h
    split at h
    · cases h
    split at h
    · cases h
    split at h
    · cases h
    · split at h <;> cases h
    · next j hne heq =>
      exact ⟨j, heq, hne⟩
  · intro hs h1 h2 h3 hloads
    rw [parse_agent_response, if_neg hs, if_neg (by simp [h1]), if_neg (by simp [h2]),
      if_neg (by simp [h3]), hloads]
  · intro fields rq cq hs h1 h2 h3 hloads hrv hcv hrout hc0 hc1
    rw [parse_agent_response, if_neg hs, if_neg (by simp [h1]), if_neg (by simp [h2]),
      if_neg (by simp [h3]), hloads]
    have hex : extractScores strFloat fields = some (none, some cq) := by
      rw [extractScores, hrv]
      dsimp only [pyFloat]
      rw [hcv]
      dsimp only [pyFloat, Option.map]
      rw [gateScore, if_neg hrout, gateScore, if_pos ⟨hc0, hc1⟩]
    dsimp only
    rw [hex]

/-- `json.loads` at the witness's input: an object carrying an
out-of-range relevance score and an in-range currency score. -/
def loadsOut : String → Option Json := fun t =>
  if t = "score reply" then
    some (.obj [("relevance_score", .num (3/2)), ("currency_score", .num (1/2))])
  else none

/-- Witness: an out-of-range relevance score is discarded while the
in-range currency score is kept (never clamped, never dropped with it); a
reply that is not JSON yields `(absent, absent)`; the kept score is in
range; and the raising case identifies a non-object JSON value. -/
theorem parse_agent_response_scores_in_range_witness :
    parse_agent_response loadsOut (fun _ => none) "score reply"
      = .ok (none, some (1/2))
    ∧ (0 ≤ (1/2 : ℚ) ∧ (1/2 : ℚ) ≤ 1)
    ∧ parse_agent_response (fun _ => none) (fun _ => none) "score reply"
      = .ok (none, none)
    ∧ (∃ j, loadsArr (stripFence "[1, 2, 3]") = some j ∧ ∀ fields, j ≠ .obj fields) := by
  have h4 := (parse_agent_response_scores_in_range loadsOut (fun _ => none)
      "score reply").2.2.2
    [("relevance_score", .num (3/2)), ("currency_score", .num (1/2))] (3/2) (1/2)
    (by decide) rfl rfl rfl rfl rfl rfl (by norm_num) (by norm_num) (by norm_num)
  refine ⟨h4, ?_, ?_, ?_⟩
  · exact ((parse_agent_response_scores_in_range loadsOut (fun _ => none)
      "score reply").1 none (some (1/2)) h4).2 (1/2) rfl
  · exact (parse_agent_response_scores_in_range (fun _ => none) (fun _ => none)
      "score reply").2.2.1 (by decide) rfl rfl rfl rfl
  · exact (parse_agent_response_scores_in_range loadsArr (fun _ => none)
      "[1, 2, 3]").2.1 () rfl

/-! ## WeShareMSSOScraper._scrape_single_page_enhanced content fallback

Lines 441-455 of src/src/workflow/sso_weshare_scraper.py: convert the
fetched page source with `html_to_markdown`; if that raises, fall back to
`BeautifulSoup(...).get_text(...)`; if that also raises, use the title.
The two conversion steps (which may raise) are passed as functions; the
title is the link text the crawler recorded. -/

def scrape_page_content (convert getText : String → Except Unit String)
    (html_content title : String) : String :=
  match convert html_content with
  | .ok md => md
  | .error _ =>
    match getText html_content with
    | .ok t => t
    | .error _ => title

/-- The conversion step of line 444, wrapped as a total function of the
embedding (the embedded post-processing itself never raises). -/
def convEmbed : String → Except Unit String := fun h => .ok (html_to_markdown h)

def getTextOk : String → Except Unit String := fun _ => .ok ""

def convErr : String → Except Unit String := fun _ => .error ()

/-- C4 counterexample: on an empty page source the conversion succeeds
with an empty string (`html_to_markdown` of the empty string is empty), so
the fallback chain is never entered and the record's `content` is empty
although its title is not — the fallbacks guard only against exceptions,
not against empty results. -/
theorem scrape_content_empty_on_empty_conversion :
    scrape_page_content convEmbed getTextOk "" "Tips" = ""
    ∧ "Tips" ≠ "" :=
  ⟨rfl, by decide⟩

/-- C4 (amended): when normalization raises the caller falls back to bare
visible text, and when that also raises to the title alone — so content is
the non-empty title when both steps throw; but a successful conversion is
used even when its result is empty, so content can be empty despite a
non-empty title (first conjunct of the disjunction). -/
theorem scrape_content_fallback_chain (convert getText : String → Except Unit String)
    (html_content title : String) :
    ((∃ e, convert html_content = .error e) → (∃ e, getText html_content = .error e) →
      scrape_page_content convert getText html_content title = title)
    ∧ (scrape_page_content convert getText html_content title = "" →
        convert html_content = .ok ""
        ∨ ((∃ e, convert html_content = .error e) ∧ getText html_content = .ok "")
        ∨ ((∃ e, convert html_content = .error e) ∧ (∃ e, getText html_content = .error e)
            ∧ title = "")) := by
  refine ⟨?_, ?_⟩
  · rintro ⟨e1, h1⟩ ⟨e2, h2⟩
    rw [scrape_page_content, h1, h2]
  · intro h
    rw [scrape_page_content] at h
    split at h
    · next md hmd =>
      exact Or.inl (by rw [hmd, h])
    · next e1 he1 =>
      split at h
      · next t ht =>
        exact Or.inr (Or.inl ⟨⟨e1, he1⟩, by rw [ht, h]⟩)
      · next e2 he2 =>
        exact Or.inr (Or.inr ⟨⟨e1, he1⟩, ⟨e2, he2⟩, h⟩)

/-- Witness: with both conversion steps raising, the content is the title;
and the empty-content case is classified by the disjunction. -/
theorem scrape_content_fallback_chain_witness :
    scrape_page_content convErr convErr "x" "Title" = "Title"
    ∧ (convEmbed "" = .ok ""
        ∨ ((∃ e, convEmbed "" = .error e) ∧ getTextOk "" = .ok "")
        ∨ ((∃ e, convEmbed "" = .error e) ∧ (∃ e, getTextOk "" = .error e)
            ∧ "Tips" = "")) := by
  refine ⟨?_, ?_⟩
  · exact (scrape_content_fallback_chain convErr convErr "x" "Title").1 ⟨(), rfl⟩ ⟨(), rfl⟩
  · exact (scrape_content_fallback_chain convEmbed getTextOk "" "Tips").2 rfl

/-! ## WeShareMSSOScraper._expand_and_scrape (lines 337-390)

The hierarchy the crawler walks is a sequence of list items; each item has
its anchor elements (href attribute and text), its expand toggle's
"icon"-class flag (line 358), and the child items revealed by clicking the
toggle.  An expansion failure or an absent child list is an item with no
children.  `LForest.cons anchors toggleIcon children rest` is one `<li>`
followed by its siblings; the flat representation keeps the recursion
structural. -/

inductive LForest where
  | nil
  | cons (anchors : List (String × String)) (toggleIcon : Bool)
      (children : LForest) (rest : LForest)

/-- Lines 351-353 and 381-384: a pair is kept when the href and the
stripped anchor text are non-empty and the base url occurs in the href as
a substring (`self.base_url in href`). -/
def keepPair (base href text : String) : List (String × String) :=
  if href ≠ "" ∧ pyStripString text ≠ "" ∧ strContains href base then
    [(href, pyStripString text)]
  else []

/-- The pairs one item itself contributes: with two or more anchors the
second anchor (line 346) carries href and title, with exactly one anchor
that one (line 377), and with none nothing. -/
def ownPairs (base : String) (anchors : List (String × String)) :
    List (String × String) :=
  if 2 ≤ anchors.length then
    match anchors[1]? with
    | some (href, text) => keepPair base href text
    | none => []
  else if anchors.length = 1 then
    match anchors[0]? with
    | some (href, text) => keepPair base href text
    | none => []
  else []

/-- Depth-first accumulation: an item's own pair, then its expanded
children (clicked only when there are at least two anchors and the toggle
carries an "icon" class), then its siblings. -/
def expand_and_scrape (base : String) : LForest → List (String × String)
  | .nil => []
  | .cons anchors tog kids rest =>
    ownPairs base anchors
      ++ (if 2 ≤ anchors.length ∧ tog = true then expand_and_scrape base kids else [])
      ++ expand_and_scrape base rest

theorem keepPair_mem {base href text : String} {p : String × String}
    (hp : p ∈ keepPair base href text) :
    p.1 ≠ "" ∧ p.2 ≠ "" ∧ strContains p.1 base = true := by
  rw [keepPair] at hp
  split at hp
  · next hcond =>
    simp only [List.mem_singleton] at hp
    subst hp
    exact ⟨hcond.1, hcond.2.1, hcond.2.2⟩
  · simp at hp

theorem ownPairs_mem (base : String) (anchors : List (String × String))
    (p : String × String) (hp : p ∈ ownPairs base anchors) :
    p.1 ≠ "" ∧ p.2 ≠ "" ∧ strContains p.1 base = true := by
  rw [ownPairs] at hp
  split at hp
  · split at hp
    · exact keepPair_mem hp
    · simp at hp
  · split at hp
    · split at hp
      · exact keepPair_mem hp
      · simp at hp
    · simp at hp

/-- C5 (amended): every `(url, title)` pair the crawler returns has a
non-empty url, a non-empty stripped title, and the base url occurring in
the url as a substring — that substring test is the crawler's only origin
check, so cross-origin urls that merely contain the base url are accepted,
and nothing deduplicates the output (see the counterexample). -/
theorem expand_and_scrape_filter (base : String) (items : LForest)
    (p : String × String) (h : p ∈ expand_and_scrape base items) :
    p.1 ≠ "" ∧ p.2 ≠ "" ∧ strContains p.1 base = true := by
  induction items with
  | nil => simp [expand_and_scrape] at h
  | cons anchors tog kids rest ihk ihr =>
    rw [expand_and_scrape] at h
    rcases List.mem_append.mp h with h1 | h2
    · rcases List.mem_append.mp h1 with ha | hk
      · exact ownPairs_mem base anchors p ha
      · by_cases hcond : 2 ≤ anchors.length ∧ tog = true
        · rw [if_pos hcond] at hk
          exact ihk hk
        · rw [if_neg hcond] at hk
          simp at hk
    · exact ihr h2

/-- Witness: a concrete accepted pair satisfies the filter. -/
theorem expand_and_scrape_filter_witness :
    ("https://weshare.advantest.com/p", "T") ∈
      expand_and_scrape "https://weshare.advantest.com"
        (.cons [("https://weshare.advantest.com/p", "T")] false .nil .nil)
    ∧ ("https://weshare.advantest.com/p" : String) ≠ ""
    ∧ ("T" : String) ≠ ""
    ∧ strContains "https://weshare.advantest.com/p" "https://weshare.advantest.com"
      = true := by
  have hmem : ("https://weshare.advantest.com/p", "T") ∈
      expand_and_scrape "https://weshare.advantest.com"
        (.cons [("https://weshare.advantest.com/p", "T")] false .nil .nil) := by decide
  have h := expand_and_scrape_filter "https://weshare.advantest.com"
    (.cons [("https://weshare.advantest.com/p", "T")] false .nil .nil)
    ("https://weshare.advantest.com/p", "T") hmem
  exact ⟨hmem, h.1, h.2.1, h.2.2⟩

def weshareBase : String := "https://weshare.advantest.com"

def evilUrl : String := "https://evil.example/?next=https://weshare.advantest.com"

/-- C5 counterexample: two sibling leaf items linking the same
cross-origin url are both returned — the output holds a duplicate url, and
that url is not under the expected origin (its character list does not
start with the base url's; the substring test accepts it because the base
url appears in its query string). -/
theorem expand_and_scrape_cross_origin_duplicates :
    expand_and_scrape weshareBase
        (.cons [(evilUrl, "Page")] false .nil
          (.cons [(evilUrl, "Page")] false .nil .nil))
      = [(evilUrl, "Page"), (evilUrl, "Page")]
    ∧ weshareBase.data.isPrefixOf evilUrl.data = false := by
  decide

end DataCurator
